import Mathlib

/-!
Shallow embedding of the analytical pipeline in `src/app.py` (header role
classification, Excel date normalization, two-pass Pareto concentration
analysis, and per-pair forecasting), together with theorems settling the
specification claims about it.

Machine reals of the source (pandas float columns) are modelled over `ℚ`;
external collaborators (the zero-shot classifier, `pd.to_datetime` free-form
text parsing, `isocalendar`, and the Prophet fit/predict engine) are modelled
as explicit function parameters, since the claims only depend on how the
pipeline arranges their outputs.
-/

namespace PTDev

/-- Rounding to one decimal place, as in pandas `.round(1)` used at
`src/app.py` lines 128-129 and 137-138 (modelled over `ℚ`). -/
def round1 (x : ℚ) : ℚ := ((round (10 * x) : ℤ) : ℚ) / 10

/-- A rational that is an integer multiple of one tenth (the exact values a
one-decimal rounded column can hold). -/
def IsTenth (x : ℚ) : Prop := ∃ k : ℤ, x = (k : ℚ) / 10

/-- Stable insertion into a list: `x` is placed before the first element `y`
with `le x y`; used to model pandas sorts (`sorted` in Python and the sorted
output of `value_counts` / `groupby`, which are stable). -/
def insertOrd (le : α → α → Bool) (x : α) : List α → List α
  | [] => [x]
  | y :: ys => if le x y then x :: y :: ys else y :: insertOrd le x ys

/-- Stable sort by the boolean "comes before or equal" relation `le`. -/
def sortOrd (le : α → α → Bool) : List α → List α
  | [] => []
  | x :: xs => insertOrd le x (sortOrd le xs)

/-- Distinct elements of a list in order of first appearance (the insertion
order a pandas groupby/value_counts hash table sees before sorting). -/
def firstUniq [DecidableEq α] : List α → List α
  | [] => []
  | x :: xs => x :: (firstUniq xs).filter (fun y => y ≠ x)

/-! ### Data model for the aggregation/forecast stages

The concentration and forecasting code in `src/app.py` (lines 58-87 and
124-142) reads exactly three columns of the normalized table: the entity
(manufacturer) column, the item column and the normalized date column, so a
record is modelled by those three fields.  Missing cells (pandas `NaN`) are
`none`; dates are day numbers (see `daysFromCivil` below). -/

structure Row where
  entity : Option String
  item : Option String
  date : Int
deriving DecidableEq, Repr

/-- The entity column as fed to pandas grouping: `NaN` entries carry no
group key (pandas `groupby` and `value_counts` drop them by default). -/
def entityKeys (rows : List Row) : List String := rows.filterMap (·.entity)

/-- Group sizes over a key column: distinct keys (in first-appearance order,
as a hash-based grouping produces them) paired with their multiplicities. -/
def groupCounts [DecidableEq κ] (keys : List κ) : List (κ × Nat) :=
  (firstUniq keys).map fun k => (k, keys.count k)

/-- The "comes before" relation for the descending-count sort of `value_counts`. -/
def freqDescLe [DecidableEq κ] (a b : κ × Nat) : Bool := decide (b.2 ≤ a.2)

/-- Source `src/app.py` lines 126-127: `data[manufacturer_column].value_counts()`,
i.e. group sizes of the entity column sorted by count descending. -/
def manufacturer_total_freq (rows : List Row) : List (String × Nat) :=
  sortOrd freqDescLe (groupCounts (entityKeys rows))

/-- One row of a concentration table: group key, Total Frequency, Percent
Contribution and Cumulative Percentage. -/
structure ConcRow (κ : Type) where
  key : κ
  totalFreq : Nat
  pct : ℚ
  cum : ℚ
deriving DecidableEq, Repr

/-- Denominator used at `src/app.py` lines 128 and 137: the sum of the
`Total Frequency` column itself. -/
def totalFreqSum (freqs : List (κ × Nat)) : Nat := (freqs.map (·.2)).sum

/-- Source `src/app.py` lines 128/137: `(freq / freq.sum() * 100).round(1)`. -/
def pctOf (total : Nat) (c : Nat) : ℚ := round1 ((c : ℚ) / (total : ℚ) * 100)

/-- Source `src/app.py` lines 129/138: `pct.cumsum().round(1)`, attached row by
row; `acc` is the running sum of the Percent Contribution column. -/
def attachCumAux (acc : ℚ) : List (κ × Nat × ℚ) → List (ConcRow κ)
  | [] => []
  | e :: rest =>
      ⟨e.1, e.2.1, e.2.2, round1 (acc + e.2.2)⟩ :: attachCumAux (acc + e.2.2) rest

/-- Build a concentration table from a frequency table: Percent Contribution
against the column sum, then the rounded running total. -/
def concRows (freqs : List (κ × Nat)) : List (ConcRow κ) :=
  attachCumAux 0 (freqs.map fun p => (p.1, p.2, pctOf (totalFreqSum freqs) p.2))

/-- Entity-level concentration table (`src/app.py` lines 126-129). -/
def manuConc (rows : List Row) : List (ConcRow String) :=
  concRows (manufacturer_total_freq rows)

/-- Source `src/app.py` line 130: rows with `Cumulative Percentage <= 80`. -/
def top_80_manufacturers (rows : List Row) : List (ConcRow String) :=
  (manuConc rows).filter fun r => decide (r.cum ≤ 80)

/-- Source `src/app.py` line 131: the entity names of the kept rows. -/
def top_manufacturers (rows : List Row) : List String :=
  (top_80_manufacturers rows).map (·.key)

/-- Source `data[manufacturer_column].isin(tops)` on one row: a `NaN` entity is
never `isin` a list of strings. -/
def isinTop (tops : List String) (r : Row) : Bool :=
  match r.entity with
  | some e => decide (e ∈ tops)
  | none => false

/-- Source `src/app.py` lines 134/136: restriction of the table to rows whose
entity is in the given already-computed top list. -/
def restrictedRows_of (tops : List String) (rows : List Row) : List Row :=
  rows.filter (isinTop tops)

/-- The restriction actually used by `main`: the first pass's top-80% set. -/
def restrictedRows (rows : List Row) : List Row :=
  restrictedRows_of (top_manufacturers rows) rows

/-- The (entity, item) key column for the second grouping pass; rows with a
missing entity or item carry no key (pandas `groupby` drops them). -/
def pairKeys (rows : List Row) : List (String × String) :=
  rows.filterMap fun r =>
    match r.entity, r.item with
    | some e, some i => some (e, i)
    | _, _ => none

/-- Lexicographic "comes before" on (entity, item) keys: pandas `groupby`
with default `sort=True` returns groups in ascending key order. -/
def pairLe (a b : String × String) : Bool :=
  decide (a.1 < b.1) || (decide (a.1 = b.1) && decide (a.2 ≤ b.2))

/-- Source `src/app.py` line 136 with the entity restriction as a parameter:
group sizes by (entity, item) over the restricted rows, in ascending key
order (pandas `groupby(...).size()`). -/
def item_total_freq_of (tops : List String) (rows : List Row) :
    List ((String × String) × Nat) :=
  sortOrd (fun a b => pairLe a.1 b.1)
    (groupCounts (pairKeys (restrictedRows_of tops rows)))

/-- Source `src/app.py` line 136 as run by `main`. -/
def item_total_freq (rows : List Row) : List ((String × String) × Nat) :=
  item_total_freq_of (top_manufacturers rows) rows

/-- Entity+item-level concentration table with the entity restriction as a
parameter (`src/app.py` lines 136-138). -/
def itemConc_of (tops : List String) (rows : List Row) :
    List (ConcRow (String × String)) :=
  concRows (item_total_freq_of tops rows)

/-- Entity+item-level concentration table as computed by `main`. -/
def itemConc (rows : List Row) : List (ConcRow (String × String)) :=
  concRows (item_total_freq rows)

/-- Source `src/app.py` line 139: the (entity, item) pairs of the rows with
`Cumulative Percentage <= 80`. -/
def top_80_items (rows : List Row) : List (String × String) :=
  (((itemConc rows).filter fun r => decide (r.cum ≤ 80)).map (·.key))

/-- Keys of the weekly frequency grouping at `src/app.py` line 124:
`groupby(['Year', 'Week', manufacturer_column])`.  The ISO year/week
extraction (`dt.isocalendar()`) is an external date-library computation,
passed in as functions of the normalized date. -/
def weekKeys (isoY isoW : Int → Int) (rows : List Row) : List (Int × Int × String) :=
  rows.filterMap fun r => r.entity.map fun e => (isoY r.date, isoW r.date, e)

/-- Lexicographic "comes before" on (Year, Week, entity) keys. -/
def wkLe (a b : Int × Int × String) : Bool :=
  decide (a.1 < b.1) ||
    (decide (a.1 = b.1) &&
      (decide (a.2.1 < b.2.1) || (decide (a.2.1 = b.2.1) && decide (a.2.2 ≤ b.2.2))))

/-- Source `src/app.py` line 124: weekly frequency table, group sizes by
(Year, Week, entity) in ascending key order. -/
def manufacturer_count (isoY isoW : Int → Int) (rows : List Row) :
    List ((Int × Int × String) × Nat) :=
  sortOrd (fun a b => wkLe a.1 b.1) (groupCounts (weekKeys isoY isoW rows))

/-- Keys of the weekly pair-frequency grouping at `src/app.py` line 134:
`groupby(['Year', 'Week', manufacturer_column, item_column])`; rows with a
missing entity or item carry no key (pandas `groupby` drops them). -/
def weekPairKeys (isoY isoW : Int → Int) (rows : List Row) :
    List (Int × Int × String × String) :=
  rows.filterMap fun r =>
    match r.entity, r.item with
    | some e, some i => some (isoY r.date, isoW r.date, e, i)
    | _, _ => none

/-- Lexicographic "comes before" on (Year, Week, entity, item) keys. -/
def wkPairLe (a b : Int × Int × String × String) : Bool :=
  decide (a.1 < b.1) ||
    (decide (a.1 = b.1) &&
      (decide (a.2.1 < b.2.1) ||
        (decide (a.2.1 = b.2.1) &&
          (decide (a.2.2.1 < b.2.2.1) ||
            (decide (a.2.2.1 = b.2.2.1) && decide (a.2.2.2 ≤ b.2.2.2))))))

/-- Source `src/app.py` line 134 with the entity restriction as a parameter:
entity+item weekly frequency table, group sizes by (Year, Week, entity,
item) over the restricted rows, in ascending key order. -/
def top_manufacturer_item_count_of (tops : List String) (isoY isoW : Int → Int)
    (rows : List Row) : List ((Int × Int × String × String) × Nat) :=
  sortOrd (fun a b => wkPairLe a.1 b.1)
    (groupCounts (weekPairKeys isoY isoW (restrictedRows_of tops rows)))

/-- Source `src/app.py` line 134 as run by `main`: the restriction is the
first pass's top-80% set. -/
def top_manufacturer_item_count (isoY isoW : Int → Int) (rows : List Row) :
    List ((Int × Int × String × String) × Nat) :=
  top_manufacturer_item_count_of (top_manufacturers rows) isoY isoW rows

/-! ### Series Forecaster (`forecast_usage`, `src/app.py` lines 58-87) -/

/-- One output row of the combined forecast frame
(`forecast[['ds', 'yhat', 'manufacturer', 'item']]`). -/
structure FRow where
  ds : Int
  yhat : ℚ
  manufacturer : String
  item : String
deriving DecidableEq, Repr

/-- Failure of the forecasting stage.  `concatValueError` models the generic
`ValueError` pandas raises from `pd.concat([])` at `src/app.py` line 85 when
`forecast_results` is empty. -/
inductive ForecastError
  | concatValueError
deriving DecidableEq, Repr

/-- Source `src/app.py` lines 63-66: filter to one (entity, item) pair, count rows
per distinct date (`groupby(date).transform('count')`), then
`drop_duplicates()`: one (date, count) point per distinct date, in
first-appearance order. -/
def seriesFor (rows : List Row) (e i : String) : List (Int × Nat) :=
  let dates :=
    ((rows.filter fun r => decide (r.entity = some e) && decide (r.item = some i)).map (·.date))
  (firstUniq dates).map fun d => (d, dates.count d)

/-- Source `src/app.py` lines 58-87.  The Prophet fit/predict step is external and
is modelled by `fp`, mapping an input series (with at least 2 points) to the
predicted `(ds, yhat)` sequence.  Pairs whose series has fewer than 2 points
are skipped (line 68); each forecast is tagged with its pair (lines 80-81);
the final `pd.concat` (line 85) raises a generic `ValueError` when no pair
produced a frame.  `forecast_results_of` is the `forecast_results`
accumulator (lines 60-82): one forecast frame per non-skipped pair. -/
def forecast_results_of (fp : List (Int × Nat) → List (Int × ℚ)) (rows : List Row)
    (top_items : List (String × String)) : List (List FRow) :=
  top_items.filterMap fun p =>
    if (seriesFor rows p.1 p.2).length < 2 then none
    else some ((fp (seriesFor rows p.1 p.2)).map fun q => FRow.mk q.1 q.2 p.1 p.2)

/-- Source `src/app.py` lines 84-87: `pd.concat(forecast_results, ignore_index=True)`
— a generic `ValueError` on an empty accumulator, the concatenation
otherwise. -/
def forecast_usage (fp : List (Int × Nat) → List (Int × ℚ)) (rows : List Row)
    (top_items : List (String × String)) : Except ForecastError (List FRow) :=
  if (forecast_results_of fp rows top_items).isEmpty then
    Except.error ForecastError.concatValueError
  else Except.ok (forecast_results_of fp rows top_items).flatten

/-! ### Header Role Classifier (`recommend_columns`, `src/app.py` lines 28-42) -/

/-- The fixed candidate role labels (`src/app.py` line 30). -/
def labels : List String := ["date", "manufacturer", "item number"]

/-- The "comes before" relation for the descending-confidence sort of the ranked column
lists: Python `sorted(..., key=lambda x: x[1], reverse=True)` is stable, so
an earlier pair stays before a later pair with the same score. -/
def scoreDescLe (a b : String × ℚ) : Bool := decide (b.2 ≤ a.2)

/-- Source `src/app.py` lines 28-42.  The zero-shot classifier is external and is
modelled by the oracle `score` (header, label) ↦ confidence, standing for
`result['scores'][result['labels'].index(label)]`.  Each label is paired
with every header's score, then sorted by score descending (line 40). -/
def recommend_columns (score : String → String → ℚ) (headers : List String) :
    List (String × List (String × ℚ)) :=
  labels.map fun label =>
    (label, sortOrd scoreDescLe (headers.map fun h => (h, score h label)))

/-! ### Date Normalizer and table preparation (`src/app.py` lines 51-56, 114-121)

The full table keeps its column structure here, since claims C4 and C9 are
about which columns change.  A cell is a string, a raw number, a normalized
date (day number) or missing (`NaN`/`NaT`). -/

inductive Val
  | str (s : String)
  | num (n : Int)
  | date (d : Int)
  | null
deriving DecidableEq, Repr

/-- Day number of a proleptic-Gregorian calendar date, with day 0 =
1970-01-01 (the standard civil-from-days correspondence, using truncated
integer division as in the reference algorithm). -/
def daysFromCivil (y m d : Int) : Int :=
  let y2 := if m ≤ 2 then y - 1 else y
  let era := (if 0 ≤ y2 then y2 else y2 - 399) / 400
  let yoe := y2 - era * 400
  let mp := (m + 9) % 12
  let doy := (153 * mp + 2) / 5 + d - 1
  let doe := yoe * 365 + yoe / 4 - yoe / 100 + doy
  era * 146097 + doe - 719468

/-- The legacy spreadsheet epoch `pd.to_datetime('1899-12-30')` used at
`src/app.py` line 54, as a day number. -/
def excelEpoch : Int := daysFromCivil 1899 12 30

/-- Source `pd.api.types.is_numeric_dtype` on a column: every cell is a number or
missing. -/
def isNumericCol (col : List Val) : Bool :=
  col.all fun v =>
    match v with
    | .num _ => true
    | .null => true
    | _ => false

/-- Source `src/app.py` lines 51-56 (`convert_excel_date`).  On a numeric column,
each value is the day offset from the 1899-12-30 epoch (missing stays
missing, `to_timedelta(NaN)` being `NaT`).  On a non-numeric column the
free-form `pd.to_datetime(..., errors='coerce')` text parse is external and
is modelled by the oracle `parse`; an unparseable cell coerces to the
invalid marker `NaT` (here `.null`) instead of raising. -/
def convert_excel_date (parse : Val → Option Int) (col : List Val) : List Val :=
  if isNumericCol col then
    col.map fun v =>
      match v with
      | .num n => .date (excelEpoch + n)
      | _ => .null
  else
    col.map fun v =>
      match parse v with
      | some d => .date d
      | none => .null

/-- A table: ordered headers and rows of cells (row i, column j). -/
structure PTable where
  headers : List String
  rows : List (List Val)
deriving DecidableEq, Repr

/-- Cell of a row at a column index (missing beyond the row's end). -/
def getCell (row : List Val) (j : Nat) : Val := row.getD j .null

/-- The date column of a table, by column index. -/
def dateColOf (di : Nat) (t : PTable) : List Val := t.rows.map fun r => getCell r di

/-- Whether a cell holds a valid normalized date (pandas: not `NaT`). -/
def isValidDate : Val → Bool
  | .date _ => true
  | _ => false

/-- Source `src/app.py` line 114: `data[date_column] = convert_excel_date(data[date_column])`,
overwriting the date column with its converted form. -/
def normalizeDateCol (parse : Val → Option Int) (di : Nat) (t : PTable) : PTable :=
  { headers := t.headers
    rows :=
      (t.rows.zip (convert_excel_date parse (dateColOf di t))).map
        fun rv => rv.1.set di rv.2 }

/-- Source `src/app.py` line 117: `data.dropna(subset=[date_column])`. -/
def dropnaDate (di : Nat) (t : PTable) : PTable :=
  { headers := t.headers
    rows := t.rows.filter fun r => isValidDate (getCell r di) }

/-- Source `src/app.py` lines 120-121: `data['Week'] = ...isocalendar().week` and
`data['Year'] = ...dt.year`, two new columns derived from the normalized
date (`isoW`, `isoY` model the external calendar computations). -/
def addWeekYear (isoY isoW : Int → Int) (di : Nat) (t : PTable) : PTable :=
  { headers := t.headers ++ ["Week", "Year"]
    rows := t.rows.map fun r =>
      r ++ [(match getCell r di with | .date d => .num (isoW d) | _ => .null),
            (match getCell r di with | .date d => .num (isoY d) | _ => .null)] }

/-- The table-preparation stage of `main` (`src/app.py` lines 113-121):
normalize the date column, drop rows with an invalid date, add the Week and
Year columns. -/
def prepareTable (parse : Val → Option Int) (isoY isoW : Int → Int) (di : Nat)
    (t : PTable) : PTable :=
  addWeekYear isoY isoW di (dropnaDate di (normalizeDateCol parse di t))

/-! ### Concrete inputs used by counterexamples and witnesses -/

/-- Ten records: entity "A" with item "a" once and item "b" seven times,
entity "B" with item "c" twice. -/
def exA : List Row :=
  [⟨some "A", some "a", 0⟩, ⟨some "A", some "b", 1⟩, ⟨some "A", some "b", 2⟩,
   ⟨some "A", some "b", 3⟩, ⟨some "A", some "b", 4⟩, ⟨some "A", some "b", 5⟩,
   ⟨some "A", some "b", 6⟩, ⟨some "A", some "b", 7⟩,
   ⟨some "B", some "c", 8⟩, ⟨some "B", some "c", 9⟩]

/-- Ten records: entity "A" with item "a" twice and item "b" six times,
entity "B" with item "c" twice. -/
def exB : List Row :=
  [⟨some "A", some "a", 0⟩, ⟨some "A", some "a", 1⟩, ⟨some "A", some "b", 2⟩,
   ⟨some "A", some "b", 3⟩, ⟨some "A", some "b", 4⟩, ⟨some "A", some "b", 5⟩,
   ⟨some "A", some "b", 6⟩, ⟨some "A", some "b", 7⟩,
   ⟨some "B", some "c", 8⟩, ⟨some "B", some "c", 9⟩]

/-- Five records of a single entity "Z". -/
def exC : List Row :=
  [⟨some "Z", some "z", 0⟩, ⟨some "Z", some "z", 1⟩, ⟨some "Z", some "z", 2⟩,
   ⟨some "Z", some "z", 3⟩, ⟨some "Z", some "z", 4⟩]

/-- Records where pair ("M","x") has one distinct date and pair ("M","y")
has two. -/
def exF : List Row :=
  [⟨some "M", some "x", 0⟩, ⟨some "M", some "x", 0⟩,
   ⟨some "M", some "y", 0⟩, ⟨some "M", some "y", 7⟩]

/-- Rows containing entities/items that are missing, for the null-exclusion
claim witnesses. -/
def exN : List Row :=
  [⟨some "A", some "a", 0⟩, ⟨none, some "a", 1⟩, ⟨some "A", none, 2⟩,
   ⟨none, none, 3⟩, ⟨some "B", some "b", 4⟩]

/-- A concrete stand-in forecasting engine for witnesses: echoes the input
series. -/
def fpId : List (Int × Nat) → List (Int × ℚ) := fun s => s.map fun p => (p.1, (p.2 : ℚ))

/-- A table with a numeric date column "d" (second row's date missing). -/
def exT : PTable :=
  { headers := ["d", "m", "i"]
    rows := [[.num 10, .str "A", .str "x"], [.null, .str "B", .str "y"]] }

/-- A table with a textual date column "d" (second row unparseable). -/
def exTText : PTable :=
  { headers := ["d", "m", "i"]
    rows := [[.str "2020-01-01", .str "A", .str "x"],
             [.str "garbage", .str "B", .str "y"]] }

/-- A concrete stand-in for the free-form text date parser. -/
def exParse : Val → Option Int
  | .str "2020-01-01" => some 18262
  | _ => none

/-- A concrete stand-in classifier for the C8 witness. -/
def exScore : String → String → ℚ := fun h l =>
  if h = "Invoice Date" && l = "date" then 9 / 10 else 1 / 10

/-! ### Lemmas about rounding -/

theorem round1_mono {x y : ℚ} (h : x ≤ y) : round1 x ≤ round1 y := by
  unfold round1
  have : round (10 * x) ≤ round (10 * y) := by
    rw [round_eq, round_eq]
    exact Int.floor_mono (by linarith)
  have hc : ((round (10 * x) : ℤ) : ℚ) ≤ ((round (10 * y) : ℤ) : ℚ) := by
    exact_mod_cast this
  linarith

theorem round1_nonneg {x : ℚ} (h : 0 ≤ x) : 0 ≤ round1 x := by
  have h0 : round1 0 ≤ round1 x := round1_mono h
  have : round1 0 = 0 := by
    unfold round1
    norm_num
  linarith [h0, this]

theorem abs_round1_sub (x : ℚ) : |round1 x - x| ≤ 1 / 20 := by
  have h := abs_sub_round (10 * x)
  unfold round1
  rw [abs_sub_comm] at h
  rw [abs_le] at h ⊢
  constructor <;> [nlinarith [h.1, h.2]; nlinarith [h.1, h.2]]

theorem round1_isTenth (x : ℚ) : IsTenth (round1 x) := ⟨round (10 * x), rfl⟩

theorem IsTenth.add {x y : ℚ} (hx : IsTenth x) (hy : IsTenth y) :
    IsTenth (x + y) := by
  obtain ⟨k, hk⟩ := hx
  obtain ⟨m, hm⟩ := hy
  refine ⟨k + m, ?_⟩
  push_cast
  rw [hk, hm]
  ring

theorem IsTenth.zero : IsTenth 0 := ⟨0, by norm_num⟩

theorem round1_eq_self {x : ℚ} (hx : IsTenth x) : round1 x = x := by
  obtain ⟨k, hk⟩ := hx
  subst hk
  unfold round1
  have h10 : (10 : ℚ) * ((k : ℚ) / 10) = (k : ℚ) := by ring
  rw [h10, round_intCast]

/-! ### Lemmas about the stable sort -/

theorem insertOrd_perm (le : α → α → Bool) (x : α) :
    ∀ l : List α, List.Perm (insertOrd le x l) (x :: l) := by
  intro l
  induction l with
  | nil => simp [insertOrd]
  | cons y ys ih =>
    by_cases h : le x y = true
    · simp [insertOrd, h]
    · simp only [insertOrd, h]
      simp only [Bool.false_eq_true, if_false]
      exact (List.Perm.cons y ih).trans (List.Perm.swap x y ys)

theorem sortOrd_perm (le : α → α → Bool) :
    ∀ l : List α, List.Perm (sortOrd le l) l := by
  intro l
  induction l with
  | nil => simp [sortOrd]
  | cons x xs ih =>
    exact (insertOrd_perm le x (sortOrd le xs)).trans (List.Perm.cons x ih)

theorem mem_sortOrd (le : α → α → Bool) {x : α} {l : List α} :
    x ∈ sortOrd le l ↔ x ∈ l := (sortOrd_perm le l).mem_iff

theorem insertOrd_chain' (le : α → α → Bool)
    (htot : ∀ a b, le a b = true ∨ le b a = true) (x : α) :
    ∀ l : List α, List.Chain' (fun a b => le a b = true) l →
      List.Chain' (fun a b => le a b = true) (insertOrd le x l) := by
  intro l
  induction l with
  | nil => intro _; simp [insertOrd]
  | cons y ys ih =>
    intro hch
    by_cases h : le x y = true
    · simp only [insertOrd, h, if_true]
      exact List.chain'_cons.mpr ⟨h, hch⟩
    · have hyx : le y x = true := (htot x y).resolve_left h
      simp only [insertOrd, h, Bool.false_eq_true, if_false]
      have hys : List.Chain' (fun a b => le a b = true) ys := hch.tail
      have hrec := ih hys
      cases ys with
      | nil => simpa [insertOrd] using hyx
      | cons z zs =>
        rw [List.chain'_cons] at hch
        by_cases hz : le x z = true
        · simp only [insertOrd, hz, if_true] at hrec ⊢
          exact List.Chain'.cons hyx hrec
        · simp only [insertOrd, hz, Bool.false_eq_true, if_false] at hrec ⊢
          exact List.Chain'.cons hch.1 hrec

theorem sortOrd_chain' (le : α → α → Bool)
    (htot : ∀ a b, le a b = true ∨ le b a = true) :
    ∀ l : List α, List.Chain' (fun a b => le a b = true) (sortOrd le l) := by
  intro l
  induction l with
  | nil => simp [sortOrd]
  | cons x xs ih => exact insertOrd_chain' le htot x (sortOrd le xs) ih

theorem insertOrd_filter (le : α → α → Bool) (p : α → Bool) (x : α)
    (hskip : ∀ y, p x = true → le x y = false → p y = false) :
    ∀ l : List α,
      (insertOrd le x l).filter p =
        if p x then x :: l.filter p else l.filter p := by
  intro l
  induction l with
  | nil => by_cases hx : p x = true <;> simp [insertOrd, hx]
  | cons y ys ih =>
    by_cases h : le x y = true
    · by_cases hx : p x = true <;> simp [insertOrd, h, hx, List.filter_cons]
    · have h' : le x y = false := by simp [h]
      by_cases hx : p x = true
      · have hy : p y = false := hskip y hx h'
        simp [insertOrd, h', hx, List.filter_cons, hy, ih]
      · have hx' : p x = false := by simp at hx; simp [hx]
        simp [insertOrd, h', hx', List.filter_cons, ih]

/-- Stability of `sortOrd`: the subsequence of elements satisfying a
predicate that is "saturated" for `le` (any two elements satisfying it
compare `le` in both directions) is left in its original order. -/
theorem sortOrd_filter (le : α → α → Bool) (p : α → Bool)
    (hp : ∀ a b, p a = true → p b = true → le a b = true) :
    ∀ l : List α, (sortOrd le l).filter p = l.filter p := by
  intro l
  induction l with
  | nil => simp [sortOrd]
  | cons x xs ih =>
    have hskip : ∀ y, p x = true → le x y = false → p y = false := by
      intro y hx hxy
      by_contra hy
      simp only [Bool.not_eq_false] at hy
      have := hp x y hx hy
      rw [this] at hxy
      cases hxy
    rw [sortOrd, insertOrd_filter le p x hskip (sortOrd le xs), ih,
      List.filter_cons]

theorem mem_firstUniq [DecidableEq α] {x : α} :
    ∀ {l : List α}, x ∈ firstUniq l ↔ x ∈ l := by
  intro l
  induction l with
  | nil => simp [firstUniq]
  | cons y ys ih =>
    simp only [firstUniq, List.mem_cons, List.mem_filter, ih,
      decide_eq_true_eq]
    by_cases hxy : x = y
    · subst hxy
      tauto
    · tauto

/-! ### Lemmas about concentration tables -/

theorem attachCum_map_keyFreq (l : List (κ × Nat × ℚ)) :
    ∀ acc, (attachCumAux acc l).map (fun r => (r.key, r.totalFreq)) =
      l.map fun e => (e.1, e.2.1) := by
  induction l with
  | nil => intro acc; simp [attachCumAux]
  | cons e rest ih => intro acc; simp [attachCumAux, ih]

theorem attachCum_map_pct (l : List (κ × Nat × ℚ)) :
    ∀ acc, (attachCumAux acc l).map (·.pct) = l.map fun e => e.2.2 := by
  induction l with
  | nil => intro acc; simp [attachCumAux]
  | cons e rest ih => intro acc; simp [attachCumAux, ih]

theorem attachCum_getElem_cum (l : List (κ × Nat × ℚ)) :
    ∀ (acc : ℚ) (n : Nat) (r : ConcRow κ), (attachCumAux acc l)[n]? = some r →
      r.cum = round1 (acc + ((l.take (n + 1)).map fun e => e.2.2).sum) := by
  induction l with
  | nil => intro acc n r h; simp [attachCumAux] at h
  | cons e rest ih =>
    intro acc n r h
    cases n with
    | zero =>
      simp only [attachCumAux, List.getElem?_cons_zero, Option.some.injEq] at h
      subst h
      simp
    | succ m =>
      simp only [attachCumAux, List.getElem?_cons_succ] at h
      have := ih (acc + e.2.2) m r h
      rw [this]
      simp only [List.take_succ_cons, List.map_cons, List.sum_cons]
      ring_nf

theorem attachCum_getLast_cum (l : List (κ × Nat × ℚ)) :
    ∀ (acc : ℚ) (r : ConcRow κ), (attachCumAux acc l).getLast? = some r →
      r.cum = round1 (acc + (l.map fun e => e.2.2).sum) := by
  induction l with
  | nil => intro acc r h; simp [attachCumAux] at h
  | cons e rest ih =>
    intro acc r h
    cases rest with
    | nil =>
      simp only [attachCumAux, List.getLast?_singleton, Option.some.injEq] at h
      subst h
      simp
    | cons e2 rest2 =>
      have hrw : attachCumAux acc (e :: e2 :: rest2) =
          ConcRow.mk e.1 e.2.1 e.2.2 (round1 (acc + e.2.2)) ::
            attachCumAux (acc + e.2.2) (e2 :: rest2) := rfl
      rw [hrw, List.getLast?_cons] at h
      rcases hgl : (attachCumAux (acc + e.2.2) (e2 :: rest2)).getLast? with _ | x
      · rw [List.getLast?_eq_none_iff] at hgl
        exact absurd hgl (by simp [attachCumAux])
      · rw [hgl] at h
        simp only [Option.getD_some, Option.some.injEq] at h
        subst h
        have := ih (acc + e.2.2) x hgl
        rw [this]
        simp only [List.map_cons, List.sum_cons]
        ring_nf

theorem attachCum_chain'_cum (l : List (κ × Nat × ℚ))
    (hpos : ∀ e ∈ l, 0 ≤ e.2.2) :
    ∀ acc, List.Chain' (fun a b : ConcRow κ => a.cum ≤ b.cum)
      (attachCumAux acc l) := by
  induction l with
  | nil => intro acc; simp [attachCumAux]
  | cons e rest ih =>
    intro acc
    have hrest : ∀ e2 ∈ rest, 0 ≤ e2.2.2 := fun e2 h2 => hpos e2 (List.mem_cons_of_mem e h2)
    have htail := ih hrest (acc + e.2.2)
    cases rest with
    | nil => simp [attachCumAux]
    | cons e2 rest2 =>
      refine List.chain'_cons.mpr ⟨?_, htail⟩
      show round1 (acc + e.2.2) ≤ round1 (acc + e.2.2 + e2.2.2)
      exact round1_mono (by have := hpos e2 (by simp); linarith)

theorem pctOf_nonneg (total c : Nat) : 0 ≤ pctOf total c := by
  unfold pctOf
  apply round1_nonneg
  positivity

theorem concRows_map_keyFreq (f : List (κ × Nat)) :
    (concRows f).map (fun r => (r.key, r.totalFreq)) = f := by
  unfold concRows
  rw [attachCum_map_keyFreq, List.map_map]
  have hfun : ((fun e : κ × Nat × ℚ => (e.1, e.2.1)) ∘
      fun p : κ × Nat => (p.1, p.2, pctOf (totalFreqSum f) p.2)) = fun p => p := by
    funext p
    rfl
  rw [hfun]
  exact List.map_id' f

theorem concRows_map_pct (f : List (κ × Nat)) :
    (concRows f).map (·.pct) = f.map fun p => pctOf (totalFreqSum f) p.2 := by
  unfold concRows
  rw [attachCum_map_pct, List.map_map]
  rfl

theorem concRows_chain'_cum (f : List (κ × Nat)) :
    List.Chain' (fun a b : ConcRow κ => a.cum ≤ b.cum) (concRows f) := by
  unfold concRows
  apply attachCum_chain'_cum
  intro e he
  simp only [List.mem_map] at he
  obtain ⟨p, _, rfl⟩ := he
  exact pctOf_nonneg _ _

theorem concRows_pairwise_cum (f : List (κ × Nat)) :
    List.Pairwise (fun a b : ConcRow κ => a.cum ≤ b.cum) (concRows f) := by
  have htrans : IsTrans (ConcRow κ) (fun a b => a.cum ≤ b.cum) :=
    ⟨fun _ _ _ hab hbc => le_trans hab hbc⟩
  exact (@List.chain'_iff_pairwise _ _ htrans).mp (concRows_chain'_cum f)

theorem concRows_head_cum (f : List (κ × Nat)) (r : ConcRow κ)
    (h : (concRows f).head? = some r) : r.cum = r.pct := by
  unfold concRows at h
  cases f with
  | nil => simp [attachCumAux] at h
  | cons p rest =>
    simp only [List.map_cons, attachCumAux, List.head?_cons, Option.some.injEq] at h
    subst h
    simp only [zero_add]
    exact round1_eq_self (round1_isTenth _)

/-- Filtering a cumulative-monotone table on `cum ≤ 80` keeps an initial
segment of it. -/
theorem filter_cum_eq_take (t : List (ConcRow κ))
    (hmono : List.Pairwise (fun a b : ConcRow κ => a.cum ≤ b.cum) t) :
    ∃ n, (t.filter fun r => decide (r.cum ≤ 80)) = t.take n := by
  induction t with
  | nil => exact ⟨0, rfl⟩
  | cons r rest ih =>
    rw [List.pairwise_cons] at hmono
    by_cases hr : r.cum ≤ 80
    · obtain ⟨n, hn⟩ := ih hmono.2
      exact ⟨n + 1, by simp [List.filter_cons, hr, hn]⟩
    · refine ⟨0, ?_⟩
      simp only [List.filter_cons, decide_eq_true_eq, hr, if_false, List.take_zero]
      rw [List.filter_eq_nil_iff]
      intro a ha
      simp only [decide_eq_true_eq]
      have := hmono.1 a ha
      intro hle
      exact hr (le_trans this hle)

theorem groupCounts_count_pos [DecidableEq κ] (keys : List κ) :
    ∀ p ∈ groupCounts keys, 1 ≤ p.2 := by
  intro p hp
  unfold groupCounts at hp
  simp only [List.mem_map] at hp
  obtain ⟨k, hk, rfl⟩ := hp
  have : k ∈ keys := mem_firstUniq.mp hk
  exact List.count_pos_iff.mpr this

theorem totalFreqSum_pos (f : List (κ × Nat)) (hne : f ≠ [])
    (hpos : ∀ p ∈ f, 1 ≤ p.2) : 1 ≤ totalFreqSum f := by
  cases f with
  | nil => exact absurd rfl hne
  | cons p rest =>
    have := hpos p (by simp)
    unfold totalFreqSum
    simp only [List.map_cons, List.sum_cons]
    omega

theorem sum_map_round1_close (xs : List ℚ) :
    |(xs.map round1).sum - xs.sum| ≤ xs.length * (1 / 20) := by
  induction xs with
  | nil => simp
  | cons x rest ih =>
    simp only [List.map_cons, List.sum_cons, List.length_cons]
    have h1 := abs_round1_sub x
    calc |round1 x + (rest.map round1).sum - (x + rest.sum)|
        = |(round1 x - x) + ((rest.map round1).sum - rest.sum)| := by ring_nf
      _ ≤ |round1 x - x| + |(rest.map round1).sum - rest.sum| := abs_add _ _
      _ ≤ 1 / 20 + rest.length * (1 / 20) := by linarith
      _ = (rest.length + 1) * (1 / 20) := by ring
      _ = ((rest.length + 1 : Nat) : ℚ) * (1 / 20) := by push_cast; ring

/-- The Percent Contribution column of a concentration table over a positive
total sums to 100 up to one rounding of at most 1/20 per row. -/
theorem concRows_sum_pct_close (f : List (κ × Nat)) (hne : f ≠ [])
    (hpos : ∀ p ∈ f, 1 ≤ p.2) :
    |((concRows f).map (·.pct)).sum - 100| ≤ (concRows f).length * (1 / 20) := by
  have hS : 1 ≤ totalFreqSum f := totalFreqSum_pos f hne hpos
  have hS0 : (totalFreqSum f : ℚ) ≠ 0 := by
    have : (1 : ℚ) ≤ (totalFreqSum f : ℚ) := by exact_mod_cast hS
    linarith
  set xs : List ℚ := f.map fun p => (p.2 : ℚ) / (totalFreqSum f : ℚ) * 100 with hxs
  have hmap : (concRows f).map (·.pct) = xs.map round1 := by
    rw [concRows_map_pct, hxs, List.map_map]
    rfl
  have hsum : xs.sum = 100 := by
    have h1 : xs = f.map fun p => (p.2 : ℚ) * (100 / (totalFreqSum f : ℚ)) := by
      rw [hxs]
      apply List.map_congr_left
      intro p _
      field_simp
    rw [h1]
    have h2 : (f.map fun p => (p.2 : ℚ) * (100 / (totalFreqSum f : ℚ))).sum =
        ((f.map fun p => (p.2 : ℚ)).sum) * (100 / (totalFreqSum f : ℚ)) := by
      rw [← List.sum_map_mul_right]
    rw [h2]
    have h3 : (f.map fun p => (p.2 : ℚ)).sum = (totalFreqSum f : ℚ) := by
      unfold totalFreqSum
      rw [Nat.cast_list_sum, List.map_map]
      rfl
    rw [h3]
    field_simp
  have hlen : (concRows f).length = xs.length := by
    have := congrArg List.length hmap
    simpa using this
  rw [hmap, hlen, ← hsum]
  exact sum_map_round1_close xs

theorem isTenth_listSum (xs : List ℚ) (h : ∀ x ∈ xs, IsTenth x) :
    IsTenth xs.sum := by
  induction xs with
  | nil => exact IsTenth.zero
  | cons x rest ih =>
    simp only [List.sum_cons]
    exact IsTenth.add (h x (by simp)) (ih fun y hy => h y (by simp [hy]))

/-- Each Percent Contribution entry is a multiple of one tenth, hence so is
the column's sum. -/
theorem concRows_sum_pct_isTenth (f : List (κ × Nat)) :
    IsTenth ((concRows f).map (·.pct)).sum := by
  apply isTenth_listSum
  intro x hx
  rw [concRows_map_pct] at hx
  simp only [List.mem_map] at hx
  obtain ⟨p, _, rfl⟩ := hx
  exact round1_isTenth _

theorem concRows_getLast_cum (f : List (κ × Nat)) (r : ConcRow κ)
    (h : (concRows f).getLast? = some r) :
    r.cum = ((concRows f).map (·.pct)).sum := by
  unfold concRows at h
  have := attachCum_getLast_cum _ 0 r h
  rw [this, zero_add]
  have hmap : ((f.map fun p => (p.1, p.2, pctOf (totalFreqSum f) p.2)).map
      fun e => e.2.2) = (concRows f).map (·.pct) := by
    rw [concRows_map_pct, List.map_map]
    rfl
  rw [hmap]
  exact round1_eq_self (concRows_sum_pct_isTenth f)

/-! ### Order lemmas for the three sort relations -/

theorem freqDescLe_total [DecidableEq κ] :
    ∀ a b : κ × Nat, freqDescLe a b = true ∨ freqDescLe b a = true := by
  intro a b
  simp only [freqDescLe, decide_eq_true_eq]
  omega

theorem scoreDescLe_total :
    ∀ a b : String × ℚ, scoreDescLe a b = true ∨ scoreDescLe b a = true := by
  intro a b
  simp only [scoreDescLe, decide_eq_true_eq]
  exact le_total b.2 a.2

theorem pairLe_total :
    ∀ a b : String × String, pairLe a b = true ∨ pairLe b a = true := by
  intro a b
  simp only [pairLe, Bool.or_eq_true, Bool.and_eq_true, decide_eq_true_eq]
  rcases lt_trichotomy a.1 b.1 with h | h | h
  · exact Or.inl (Or.inl h)
  · rcases le_total a.2 b.2 with h2 | h2
    · exact Or.inl (Or.inr ⟨h, h2⟩)
    · exact Or.inr (Or.inr ⟨h.symm, h2⟩)
  · exact Or.inr (Or.inl h)

theorem pairLe_trans {a b c : String × String} (hab : pairLe a b = true)
    (hbc : pairLe b c = true) : pairLe a c = true := by
  simp only [pairLe, Bool.or_eq_true, Bool.and_eq_true, decide_eq_true_eq] at *
  rcases hab with h1 | ⟨h1, h1'⟩ <;> rcases hbc with h2 | ⟨h2, h2'⟩
  · exact Or.inl (lt_trans h1 h2)
  · exact Or.inl (h2 ▸ h1)
  · exact Or.inl (h1 ▸ h2)
  · exact Or.inr ⟨h1.trans h2, h1'.trans h2'⟩

/-- Transfer a sortedness relation from a frequency table to the
concentration table built on it (keys and counts are carried unchanged). -/
theorem concRows_chain'_keyFreq (f : List (κ × Nat))
    (le : κ × Nat → κ × Nat → Bool)
    (h : List.Chain' (fun a b => le a b = true) f) :
    List.Chain' (fun a b : ConcRow κ =>
      le (a.key, a.totalFreq) (b.key, b.totalFreq) = true) (concRows f) := by
  rw [← concRows_map_keyFreq f] at h
  exact (List.chain'_map fun r : ConcRow κ => (r.key, r.totalFreq)).mp h

/-! ### Null keys contribute to no group -/

theorem entityKeys_filter_isSome (rows : List Row) :
    entityKeys (rows.filter fun r => r.entity.isSome) = entityKeys rows := by
  induction rows with
  | nil => rfl
  | cons r rest ih =>
    cases h : r.entity with
    | none =>
      simp [entityKeys, List.filter_cons, List.filterMap_cons, h] at ih ⊢
      exact ih
    | some e =>
      simp [entityKeys, List.filter_cons, List.filterMap_cons, h] at ih ⊢
      exact ih

theorem weekKeys_filter_isSome (isoY isoW : Int → Int) (rows : List Row) :
    weekKeys isoY isoW (rows.filter fun r => r.entity.isSome) =
      weekKeys isoY isoW rows := by
  induction rows with
  | nil => rfl
  | cons r rest ih =>
    cases h : r.entity with
    | none =>
      simp [weekKeys, List.filter_cons, List.filterMap_cons, h] at ih ⊢
      exact ih
    | some e =>
      simp [weekKeys, List.filter_cons, List.filterMap_cons, h] at ih ⊢
      exact ih

theorem pairKeys_restricted_filter (tops : List String) (rows : List Row) :
    pairKeys (restrictedRows_of tops
        (rows.filter fun r => r.entity.isSome && r.item.isSome)) =
      pairKeys (restrictedRows_of tops rows) := by
  induction rows with
  | nil => rfl
  | cons r rest ih =>
    cases he : r.entity with
    | none =>
      simp [restrictedRows_of, List.filter_cons, isinTop, he] at ih ⊢
      exact ih
    | some e =>
      cases hi : r.item with
      | none =>
        by_cases htop : e ∈ tops
        · simp [restrictedRows_of, List.filter_cons, isinTop, he, hi, htop,
            pairKeys, List.filterMap_cons] at ih ⊢
          exact ih
        · simp [restrictedRows_of, List.filter_cons, isinTop, he, hi, htop] at ih ⊢
          exact ih
      | some i =>
        by_cases htop : e ∈ tops
        · simp [restrictedRows_of, List.filter_cons, isinTop, he, hi, htop,
            pairKeys, List.filterMap_cons] at ih ⊢
          exact ih
        · simp [restrictedRows_of, List.filter_cons, isinTop, he, hi, htop] at ih ⊢
          exact ih

theorem weekPairKeys_restricted_filter (tops : List String)
    (isoY isoW : Int → Int) (rows : List Row) :
    weekPairKeys isoY isoW (restrictedRows_of tops
        (rows.filter fun r => r.entity.isSome && r.item.isSome)) =
      weekPairKeys isoY isoW (restrictedRows_of tops rows) := by
  induction rows with
  | nil => rfl
  | cons r rest ih =>
    cases he : r.entity with
    | none =>
      simp [restrictedRows_of, List.filter_cons, isinTop, he] at ih ⊢
      exact ih
    | some e =>
      cases hi : r.item with
      | none =>
        by_cases htop : e ∈ tops
        · simp [restrictedRows_of, List.filter_cons, isinTop, he, hi, htop,
            weekPairKeys, List.filterMap_cons] at ih ⊢
          exact ih
        · simp [restrictedRows_of, List.filter_cons, isinTop, he, hi, htop] at ih ⊢
          exact ih
      | some i =>
        by_cases htop : e ∈ tops
        · simp [restrictedRows_of, List.filter_cons, isinTop, he, hi, htop,
            weekPairKeys, List.filterMap_cons] at ih ⊢
          exact ih
        · simp [restrictedRows_of, List.filter_cons, isinTop, he, hi, htop] at ih ⊢
          exact ih

/-- The Cumulative Percentage at position `n` is the rounded running sum of
the Percent Contribution column up to and including that row, in the order
the table stores its rows. -/
theorem concRows_getElem_cum (f : List (κ × Nat)) (n : Nat) (r : ConcRow κ)
    (h : (concRows f)[n]? = some r) :
    r.cum = round1 ((((concRows f).take (n + 1)).map (·.pct)).sum) := by
  have hpct : ((concRows f).take (n + 1)).map (fun x : ConcRow κ => x.pct) =
      ((f.map fun p => (p.1, p.2, pctOf (totalFreqSum f) p.2)).take (n + 1)).map
        (fun e => e.2.2) := by
    rw [List.map_take, List.map_take]
    unfold concRows
    rw [attachCum_map_pct]
  unfold concRows at h
  have hc := attachCum_getElem_cum _ 0 n r h
  rw [hpct, hc, zero_add]

/-- The three numerical invariants of a non-empty concentration table over
positive counts. -/
theorem conc_table_props (f : List (κ × Nat)) (hne : f ≠ [])
    (hpos : ∀ p ∈ f, 1 ≤ p.2) :
    List.Pairwise (fun a b : ConcRow κ => a.cum ≤ b.cum) (concRows f) ∧
      (∀ r, (concRows f).getLast? = some r →
        |r.cum - 100| ≤ (concRows f).length * (1 / 10)) ∧
      |((concRows f).map (·.pct)).sum - 100| ≤ (concRows f).length * (1 / 10) := by
  have hclose := concRows_sum_pct_close f hne hpos
  have hhalf : ((concRows f).length : ℚ) * (1 / 20) ≤ (concRows f).length * (1 / 10) := by
    have : (0 : ℚ) ≤ (concRows f).length := by positivity
    nlinarith
  refine ⟨concRows_pairwise_cum f, ?_, le_trans hclose hhalf⟩
  intro r hr
  rw [concRows_getLast_cum f r hr]
  exact le_trans hclose hhalf

/-! ### Claim theorems -/

/-- C3: whenever every selected (entity, item) pair has a distinct-date
series of fewer than 2 points (including the empty pair list), the
forecasting stage fails — but with the generic `ValueError` that
`pd.concat([])` raises at `src/app.py` line 85, not with a distinct named
EmptyForecastSet condition as the claim requires.  This theorem evaluates
the code's behavior at such inputs. -/
theorem claim_C3 (fp : List (Int × Nat) → List (Int × ℚ)) (rows : List Row)
    (pairs : List (String × String))
    (h : ∀ p ∈ pairs, (seriesFor rows p.1 p.2).length < 2) :
    forecast_usage fp rows pairs = Except.error ForecastError.concatValueError := by
  have hnil : forecast_results_of fp rows pairs = [] := by
    unfold forecast_results_of
    rw [List.filterMap_eq_nil_iff]
    intro p hp
    simp [h p hp]
  unfold forecast_usage
  rw [hnil]
  rfl

/-- Witness for C3: on concrete records where the only selected pair has a
single distinct date, the stage returns the generic concatenation error. -/
theorem claim_C3_w :
    forecast_usage fpId exF [("M", "x")] =
      Except.error ForecastError.concatValueError :=
  claim_C3 fpId exF [("M", "x")] (by decide)

/-- C5: a pair whose distinct-date series has fewer than 2 points produces
zero forecast rows and does not raise, and its being skipped leaves the
result for the other pairs unchanged: running on a pair list containing it
equals running on the list with it removed. -/
theorem claim_C5 (fp : List (Int × Nat) → List (Int × ℚ)) (rows : List Row)
    (e i : String) (l1 l2 : List (String × String))
    (h : (seriesFor rows e i).length < 2) :
    forecast_usage fp rows (l1 ++ (e, i) :: l2) =
      forecast_usage fp rows (l1 ++ l2) := by
  have hres : forecast_results_of fp rows (l1 ++ (e, i) :: l2) =
      forecast_results_of fp rows (l1 ++ l2) := by
    unfold forecast_results_of
    rw [List.filterMap_append, List.filterMap_append, List.filterMap_cons]
    simp [h]
  unfold forecast_usage
  rw [hres]

/-- Witness for C5: the pair ("M","x") of `exF` has one distinct date, and
dropping it from the selection does not change the output. -/
theorem claim_C5_w :
    (seriesFor exF "M" "x").length < 2 ∧
      forecast_usage fpId exF [("M", "x"), ("M", "y")] =
        forecast_usage fpId exF [("M", "y")] :=
  ⟨by decide, claim_C5 fpId exF "M" "x" [] [("M", "y")] (by decide)⟩

/-- C8: for every header sequence and every role label of the classifier
output, the ranked list pairs every header with its confidence (it is a
permutation of the scored header sequence), it is sorted by confidence
descending, and ties keep the original header order (for each confidence
value, the subsequence of pairs holding it is exactly as in the input
order). -/
theorem claim_C8 (score : String → String → ℚ) (headers : List String)
    (label : String) (ranked : List (String × ℚ))
    (h : (label, ranked) ∈ recommend_columns score headers) :
    List.Perm ranked (headers.map fun hd => (hd, score hd label)) ∧
      List.Pairwise (fun a b : String × ℚ => b.2 ≤ a.2) ranked ∧
      ∀ c : ℚ, ranked.filter (fun q => decide (q.2 = c)) =
        (headers.map fun hd => (hd, score hd label)).filter
          fun q => decide (q.2 = c) := by
  unfold recommend_columns at h
  simp only [List.mem_map, Prod.mk.injEq] at h
  obtain ⟨lab, hlab, hl, hr⟩ := h
  subst hl
  subst hr
  refine ⟨sortOrd_perm _ _, ?_, ?_⟩
  · have htrans : IsTrans (String × ℚ) (fun a b => scoreDescLe a b = true) := by
      refine ⟨?_⟩
      intro a b c hab hbc
      simp only [scoreDescLe, decide_eq_true_eq] at *
      exact le_trans hbc hab
    have hch := sortOrd_chain' scoreDescLe scoreDescLe_total
      (headers.map fun hd => (hd, score hd lab))
    have hpw := (@List.chain'_iff_pairwise _ _ htrans).mp hch
    refine hpw.imp ?_
    intro a b hab
    simpa [scoreDescLe] using hab
  · intro c
    apply sortOrd_filter
    intro a b ha hb
    simp only [decide_eq_true_eq] at ha hb
    simp only [scoreDescLe, decide_eq_true_eq]
    rw [ha, hb]

/-- Witness for C8 at a concrete classifier and header list. -/
theorem claim_C8_w :
    List.Perm [("Invoice Date", (9 : ℚ) / 10), ("Vendor", (1 : ℚ) / 10),
        ("Part No", (1 : ℚ) / 10)]
      (["Invoice Date", "Vendor", "Part No"].map fun hd => (hd, exScore hd "date")) ∧
      List.Pairwise (fun a b : String × ℚ => b.2 ≤ a.2)
        [("Invoice Date", (9 : ℚ) / 10), ("Vendor", (1 : ℚ) / 10),
          ("Part No", (1 : ℚ) / 10)] ∧
      ∀ c : ℚ,
        ([("Invoice Date", (9 : ℚ) / 10), ("Vendor", (1 : ℚ) / 10),
            ("Part No", (1 : ℚ) / 10)].filter fun q => decide (q.2 = c)) =
          (["Invoice Date", "Vendor", "Part No"].map
              fun hd => (hd, exScore hd "date")).filter fun q => decide (q.2 = c) :=
  claim_C8 exScore ["Invoice Date", "Vendor", "Part No"] "date"
    [("Invoice Date", (9 : ℚ) / 10), ("Vendor", (1 : ℚ) / 10),
      ("Part No", (1 : ℚ) / 10)]
    (by
      have hrc : recommend_columns exScore ["Invoice Date", "Vendor", "Part No"] =
          [("date", [("Invoice Date", (9 : ℚ) / 10), ("Vendor", (1 : ℚ) / 10),
              ("Part No", (1 : ℚ) / 10)]),
           ("manufacturer", [("Invoice Date", (1 : ℚ) / 10), ("Vendor", (1 : ℚ) / 10),
              ("Part No", (1 : ℚ) / 10)]),
           ("item number", [("Invoice Date", (1 : ℚ) / 10), ("Vendor", (1 : ℚ) / 10),
              ("Part No", (1 : ℚ) / 10)])] := by with_unfolding_all decide
      rw [hrc]
      exact List.mem_cons_self _ _)

/-- C10: records with a missing (null) entity contribute to no
weekly-frequency group, to no Total Frequency, to no Percent Contribution
denominator, and can never enter the top-80% entity set: all entity-level
outputs are unchanged when those records are removed.  At the entity+item
level the same holds for records missing an entity or an item, for any fixed
entity restriction (the one `main` uses at lines 134/136 included): both the
entity+item weekly-frequency table (line 134) and the entity+item
concentration table (lines 136-138) are unchanged when those records are
removed. -/
theorem claim_C10 (isoY isoW : Int → Int) (rows : List Row) (tops : List String) :
    manufacturer_count isoY isoW (rows.filter fun r => r.entity.isSome) =
        manufacturer_count isoY isoW rows ∧
      manuConc (rows.filter fun r => r.entity.isSome) = manuConc rows ∧
      top_manufacturers (rows.filter fun r => r.entity.isSome) =
        top_manufacturers rows ∧
      top_manufacturer_item_count_of tops isoY isoW
          (rows.filter fun r => r.entity.isSome && r.item.isSome) =
        top_manufacturer_item_count_of tops isoY isoW rows ∧
      itemConc_of tops (rows.filter fun r => r.entity.isSome && r.item.isSome) =
        itemConc_of tops rows := by
  have h1 := entityKeys_filter_isSome rows
  have h2 := weekKeys_filter_isSome isoY isoW rows
  have h3 := pairKeys_restricted_filter tops rows
  have h4 := weekPairKeys_restricted_filter tops isoY isoW rows
  refine ⟨?_, ?_, ?_, ?_, ?_⟩
  · unfold manufacturer_count
    rw [h2]
  · unfold manuConc manufacturer_total_freq
    rw [h1]
  · unfold top_manufacturers top_80_manufacturers manuConc manufacturer_total_freq
    rw [h1]
  · unfold top_manufacturer_item_count_of
    rw [h4]
  · unfold itemConc_of item_total_freq_of
    rw [h3]

/-- Every (entity, item) key of the second pass comes from a restricted row,
so its entity lies in the restriction list computed by the first pass. -/
theorem pairKeys_restricted_mem (rows : List Row) (k : String × String)
    (hk : k ∈ pairKeys (restrictedRows rows)) :
    k.1 ∈ top_manufacturers rows := by
  unfold pairKeys at hk
  rw [List.mem_filterMap] at hk
  obtain ⟨r, hr, hmatch⟩ := hk
  unfold restrictedRows restrictedRows_of at hr
  rw [List.mem_filter] at hr
  have hcond := hr.2
  unfold isinTop at hcond
  cases he : r.entity with
  | none =>
    rw [he] at hmatch
    cases r.item <;> simp at hmatch
  | some e =>
    rw [he] at hcond hmatch
    cases hi : r.item with
    | none =>
      rw [hi] at hmatch
      simp at hmatch
    | some i =>
      rw [hi] at hmatch
      simp only [Option.some.injEq] at hmatch
      rw [← hmatch]
      simpa using hcond

/-- C7: every row of the entity+item concentration table, and every selected
(entity, item) pair, has its entity inside the first pass's top-80% set,
while the first pass's frequency table ranges over exactly the entities
present in the full table. -/
theorem claim_C7 (rows : List Row) :
    (∀ r ∈ itemConc rows, r.key.1 ∈ top_manufacturers rows) ∧
      (∀ p ∈ top_80_items rows, p.1 ∈ top_manufacturers rows) ∧
      ∀ e : String,
        (∃ c, (e, c) ∈ manufacturer_total_freq rows) ↔ e ∈ entityKeys rows := by
  have hrow : ∀ r ∈ itemConc rows, r.key.1 ∈ top_manufacturers rows := by
    intro r hr
    have hmem : (r.key, r.totalFreq) ∈ item_total_freq rows := by
      have h2 := List.mem_map_of_mem (fun q : ConcRow (String × String) =>
        (q.key, q.totalFreq)) hr
      unfold itemConc at h2
      rw [concRows_map_keyFreq] at h2
      exact h2
    unfold item_total_freq item_total_freq_of at hmem
    rw [mem_sortOrd] at hmem
    unfold groupCounts at hmem
    rw [List.mem_map] at hmem
    obtain ⟨k, hk, hke⟩ := hmem
    have hkey : k = r.key := congrArg Prod.fst hke
    subst hkey
    exact pairKeys_restricted_mem rows r.key (mem_firstUniq.mp hk)
  refine ⟨hrow, ?_, ?_⟩
  · intro p hp
    unfold top_80_items at hp
    rw [List.mem_map] at hp
    obtain ⟨r, hr, rfl⟩ := hp
    exact hrow r (List.mem_of_mem_filter hr)
  · intro e
    constructor
    · rintro ⟨c, hc⟩
      unfold manufacturer_total_freq at hc
      rw [mem_sortOrd] at hc
      unfold groupCounts at hc
      rw [List.mem_map] at hc
      obtain ⟨k, hk, hke⟩ := hc
      have : k = e := congrArg Prod.fst hke
      subst this
      exact mem_firstUniq.mp hk
    · intro he
      refine ⟨(entityKeys rows).count e, ?_⟩
      unfold manufacturer_total_freq
      rw [mem_sortOrd]
      unfold groupCounts
      exact List.mem_map_of_mem _ (mem_firstUniq.mpr he)

/-- Witness for C7: the selected pair ("A","a") of `exA` has its entity in
the entity-level top-80% set. -/
theorem claim_C7_w : ("A" : String) ∈ top_manufacturers exA :=
  (claim_C7 exA).1 (ConcRow.mk ("A", "a") 1 ((25 : ℚ) / 2) ((25 : ℚ) / 2))
    (by with_unfolding_all decide)

/-- Counterexample for C2: in `exB` the entity+item concentration table is
NOT sorted by Total Frequency descending (its group-key order puts the
frequency-2 pair before the frequency-6 pair). -/
theorem claim_C2_cex :
    ¬ List.Pairwise (fun a b : ConcRow (String × String) =>
        b.totalFreq ≤ a.totalFreq) (itemConc exB) := by
  with_unfolding_all decide

/-- C2 (amended): the entity-level concentration table is sorted by Total
Frequency descending, while the entity+item table is sorted by its
(entity, item) group key ascending (pandas `groupby` order), not by
frequency; in both tables the Cumulative Percentage of each row is the
rounded running sum of Percent Contribution over the rows in the order the
table stores them. -/
theorem claim_C2 (rows : List Row) :
    List.Pairwise (fun a b : ConcRow String => b.totalFreq ≤ a.totalFreq)
        (manuConc rows) ∧
      List.Pairwise (fun a b : ConcRow (String × String) =>
        pairLe a.key b.key = true) (itemConc rows) ∧
      (∀ (n : Nat) (r : ConcRow String), (manuConc rows)[n]? = some r →
        r.cum = round1 ((((manuConc rows).take (n + 1)).map (·.pct)).sum)) ∧
      ∀ (n : Nat) (r : ConcRow (String × String)), (itemConc rows)[n]? = some r →
        r.cum = round1 ((((itemConc rows).take (n + 1)).map (·.pct)).sum) := by
  refine ⟨?_, ?_, ?_, ?_⟩
  · have hch := sortOrd_chain' freqDescLe freqDescLe_total
      (groupCounts (entityKeys rows))
    have hch2 := concRows_chain'_keyFreq _ freqDescLe hch
    have htrans : IsTrans (ConcRow String)
        (fun a b => b.totalFreq ≤ a.totalFreq) := ⟨fun _ _ _ h1 h2 => le_trans h2 h1⟩
    refine (@List.chain'_iff_pairwise _ _ htrans).mp ?_
    refine hch2.imp ?_
    intro a b hab
    simpa [freqDescLe] using hab
  · have hch := sortOrd_chain' (fun a b : (String × String) × Nat => pairLe a.1 b.1)
      (fun a b => pairLe_total a.1 b.1)
      (groupCounts (pairKeys (restrictedRows_of (top_manufacturers rows) rows)))
    have hch2 := concRows_chain'_keyFreq _
      (fun a b : (String × String) × Nat => pairLe a.1 b.1) hch
    have htrans : IsTrans (ConcRow (String × String))
        (fun a b => pairLe a.key b.key = true) :=
      ⟨fun _ _ _ h1 h2 => pairLe_trans h1 h2⟩
    exact (@List.chain'_iff_pairwise _ _ htrans).mp hch2
  · intro n r h
    exact concRows_getElem_cum _ n r h
  · intro n r h
    exact concRows_getElem_cum _ n r h

/-- Witness for C2 at concrete inputs: the first row of the entity table of
`exA` carries the running sum of the first Percent Contribution. -/
theorem claim_C2_w :
    (ConcRow.mk "A" 8 (80 : ℚ) 80).cum =
      round1 ((((manuConc exA).take 1).map (·.pct)).sum) :=
  (claim_C2 exA).2.2.1 0 (ConcRow.mk "A" 8 80 80) (by with_unfolding_all decide)

/-- Counterexample for C1: in `exA` the largest entity+item group holds
87.5% > 80% of the restricted records, yet the top-80% selection of the
second pass is NOT empty (the table is in key order, so the small group
preceding it has Cumulative Percentage 12.5 ≤ 80 and is kept). -/
theorem claim_C1_cex :
    (∃ r ∈ itemConc exA,
        (∀ q ∈ itemConc exA, q.totalFreq ≤ r.totalFreq) ∧ 80 < r.pct) ∧
      top_80_items exA ≠ [] := by
  with_unfolding_all decide

/-- C1 (amended): for both passes the top-80% subset is exactly the rows
kept by filtering on Cumulative Percentage ≤ 80, and — cumulative values
being non-decreasing — it is an initial segment of the stored table; the
stored order is descending frequency only for the entity-level pass (the
entity+item pass is stored in ascending key order), and when the
entity-level table's first row alone exceeds 80% the entity-level selection
is empty. -/
theorem claim_C1 (rows : List Row) :
    top_80_manufacturers rows =
        (manuConc rows).filter (fun r => decide (r.cum ≤ 80)) ∧
      (∃ n, top_80_manufacturers rows = (manuConc rows).take n) ∧
      (∃ n, ((itemConc rows).filter fun r => decide (r.cum ≤ 80)) =
        (itemConc rows).take n) ∧
      ∀ r : ConcRow String, (manuConc rows).head? = some r → 80 < r.pct →
        top_80_manufacturers rows = [] := by
  refine ⟨rfl, ?_, ?_, ?_⟩
  · exact filter_cum_eq_take _ (concRows_pairwise_cum _)
  · exact filter_cum_eq_take _ (concRows_pairwise_cum _)
  · intro r hhead hpct
    have hcum : r.cum = r.pct := concRows_head_cum _ r hhead
    unfold top_80_manufacturers
    rw [List.filter_eq_nil_iff]
    intro a ha
    simp only [decide_eq_true_eq]
    intro hle
    have hpw := concRows_pairwise_cum (manufacturer_total_freq rows)
    cases hm : manuConc rows with
    | nil =>
      rw [hm] at ha
      cases ha
    | cons r0 rest =>
      have hr0 : r0 = r := by
        rw [hm] at hhead
        simpa using hhead
      subst hr0
      unfold manuConc at hm ha
      rw [hm] at hpw
      rw [hm] at ha
      rw [List.pairwise_cons] at hpw
      have hge : r0.cum ≤ a.cum := by
        rcases List.mem_cons.mp ha with rfl | ha2
        · exact le_refl _
        · exact hpw.1 a ha2
      rw [hcum] at hge
      linarith

/-- Witness for C1: the single entity of `exC` holds 100% > 80% alone, and
the entity-level top-80% selection is empty. -/
theorem claim_C1_w : top_80_manufacturers exC = [] :=
  (claim_C1 exC).2.2.2 (ConcRow.mk "Z" 5 100 100)
    (by with_unfolding_all decide) (by norm_num)

/-- C6: for every non-empty concentration table of either pass the
Cumulative Percentage column is non-decreasing across rows, the last row's
Cumulative Percentage equals 100 up to the rounding tolerance, and the
Percent Contribution column sums to 100 within 0.1 per row times the row
count. -/
theorem claim_C6 (rows : List Row) :
    (manuConc rows ≠ [] →
      List.Pairwise (fun a b : ConcRow String => a.cum ≤ b.cum) (manuConc rows) ∧
        (∀ r, (manuConc rows).getLast? = some r →
          |r.cum - 100| ≤ (manuConc rows).length * (1 / 10)) ∧
        |((manuConc rows).map (·.pct)).sum - 100| ≤
          (manuConc rows).length * (1 / 10)) ∧
      (itemConc rows ≠ [] →
        List.Pairwise (fun a b : ConcRow (String × String) => a.cum ≤ b.cum)
            (itemConc rows) ∧
          (∀ r, (itemConc rows).getLast? = some r →
            |r.cum - 100| ≤ (itemConc rows).length * (1 / 10)) ∧
          |((itemConc rows).map (·.pct)).sum - 100| ≤
            (itemConc rows).length * (1 / 10)) := by
  constructor
  · intro hne
    have hf : manufacturer_total_freq rows ≠ [] := by
      intro hf
      apply hne
      unfold manuConc
      rw [hf]
      rfl
    have hpos : ∀ p ∈ manufacturer_total_freq rows, 1 ≤ p.2 := by
      intro p hp
      unfold manufacturer_total_freq at hp
      rw [mem_sortOrd] at hp
      exact groupCounts_count_pos _ p hp
    exact conc_table_props _ hf hpos
  · intro hne
    have hf : item_total_freq rows ≠ [] := by
      intro hf
      apply hne
      unfold itemConc
      rw [hf]
      rfl
    have hpos : ∀ p ∈ item_total_freq rows, 1 ≤ p.2 := by
      intro p hp
      unfold item_total_freq item_total_freq_of at hp
      rw [mem_sortOrd] at hp
      exact groupCounts_count_pos _ p hp
    exact conc_table_props _ hf hpos

/-- Witness for C6 on the non-empty tables of `exA`: the last entity row's
cumulative value and the item table's contribution sum are both within
tolerance. -/
theorem claim_C6_w :
    |(ConcRow.mk "B" 2 (20 : ℚ) 100).cum - 100| ≤
        (manuConc exA).length * (1 / 10) ∧
      |((itemConc exA).map (·.pct)).sum - 100| ≤
        (itemConc exA).length * (1 / 10) :=
  ⟨((claim_C6 exA).1 (by with_unfolding_all decide)).2.1
      (ConcRow.mk "B" 2 20 100) (by with_unfolding_all decide),
    ((claim_C6 exA).2 (by with_unfolding_all decide)).2.2⟩

/-- C4: on a numeric date column every value `v` is normalized to the
calendar date 1899-12-30 plus `v` days; on a non-numeric column every value
goes through the (total, never-raising) text parse, an unparseable entry
becoming the invalid marker; and after the normalization stage drops
invalid-date records, every surviving record's date cell is a valid date. -/
theorem claim_C4 (parse : Val → Option Int) (di : Nat) (t : PTable)
    (isoY isoW : Int → Int) :
    (isNumericCol (dateColOf di t) = true →
      ∀ (j : Nat) (n : Int), (dateColOf di t)[j]? = some (Val.num n) →
        (convert_excel_date parse (dateColOf di t))[j]? =
          some (Val.date (daysFromCivil 1899 12 30 + n))) ∧
      (isNumericCol (dateColOf di t) = false →
        ∀ (j : Nat) (v : Val), (dateColOf di t)[j]? = some v →
          (convert_excel_date parse (dateColOf di t))[j]? =
            some (match parse v with
                  | some d => Val.date d
                  | none => Val.null)) ∧
      ∀ r ∈ (prepareTable parse isoY isoW di t).rows,
        isValidDate (getCell r di) = true := by
  refine ⟨?_, ?_, ?_⟩
  · intro hnum j n hj
    unfold convert_excel_date
    rw [if_pos hnum, List.getElem?_map, hj]
    rfl
  · intro hnum j v hj
    unfold convert_excel_date
    rw [if_neg (by simp [hnum]), List.getElem?_map, hj]
    rfl
  · intro r hr
    unfold prepareTable addWeekYear at hr
    simp only [List.mem_map] at hr
    obtain ⟨r0, hr0, rfl⟩ := hr
    unfold dropnaDate at hr0
    simp only [List.mem_filter] at hr0
    have hval := hr0.2
    have hlt : di < r0.length := by
      by_contra hge
      push_neg at hge
      unfold getCell at hval
      rw [List.getD_eq_default r0 Val.null hge] at hval
      simp [isValidDate] at hval
    show isValidDate (getCell (r0 ++ _) di) = true
    unfold getCell
    rw [List.getD_append _ _ _ _ hlt]
    exact hval

/-- Witness for C4: the numeric cell 10 of `exT` becomes the epoch plus 10
days, the unparseable text cell of `exTText` becomes the invalid marker, and
every surviving prepared row of `exT` has a valid date. -/
theorem claim_C4_w :
    (convert_excel_date exParse (dateColOf 0 exT))[0]? =
        some (Val.date (daysFromCivil 1899 12 30 + 10)) ∧
      (convert_excel_date exParse (dateColOf 0 exTText))[1]? = some Val.null ∧
      ∀ r ∈ (prepareTable exParse (fun d => d) (fun d => d) 0 exT).rows,
        isValidDate (getCell r 0) = true :=
  ⟨(claim_C4 exParse 0 exT (fun d => d) (fun d => d)).1 (by decide) 0 10 (by decide),
    (claim_C4 exParse 0 exTText (fun d => d) (fun d => d)).2.1 (by decide) 1
      (Val.str "garbage") (by decide),
    (claim_C4 exParse 0 exT (fun d => d) (fun d => d)).2.2⟩

/-- Counterexample for C9: the prepared table does NOT keep the header set
unchanged — `src/app.py` lines 120-121 append the derived columns Week and
Year, so "no new columns are added to the Table" fails. -/
theorem claim_C9_cex :
    (prepareTable exParse (fun d => d) (fun d => d) 0 exT).headers ≠
      exT.headers := by
  decide

/-- C9 (amended): the preparation stage overwrites the date column, drops
invalid-date records, and appends the two derived columns Week and Year;
apart from that nothing changes: the prepared headers are the original
headers plus ["Week", "Year"], and every surviving row agrees with its
originating row on every original column other than the date column. -/
theorem claim_C9 (parse : Val → Option Int) (isoY isoW : Int → Int) (di : Nat)
    (t : PTable) (hwf : ∀ r ∈ t.rows, r.length = t.headers.length) :
    (prepareTable parse isoY isoW di t).headers = t.headers ++ ["Week", "Year"] ∧
      ∀ r1 ∈ (prepareTable parse isoY isoW di t).rows, ∃ r0 ∈ t.rows,
        ∀ j : Nat, j < t.headers.length → j ≠ di → getCell r1 j = getCell r0 j := by
  refine ⟨rfl, ?_⟩
  intro r1 hr1
  unfold prepareTable addWeekYear at hr1
  simp only [List.mem_map] at hr1
  obtain ⟨r2, hr2, rfl⟩ := hr1
  unfold dropnaDate at hr2
  simp only [List.mem_filter] at hr2
  have hr2m := hr2.1
  unfold normalizeDateCol at hr2m
  simp only [List.mem_map] at hr2m
  obtain ⟨⟨a, b⟩, hzip, rfl⟩ := hr2m
  have ha : a ∈ t.rows := (List.of_mem_zip hzip).1
  refine ⟨a, ha, ?_⟩
  intro j hj hjd
  have hlen : j < (a.set di b).length := by
    rw [List.length_set, hwf a ha]
    exact hj
  unfold getCell
  rw [List.getD_append _ _ _ _ hlen, List.getD_eq_getElem?_getD,
    List.getElem?_set_ne (Ne.symm hjd), ← List.getD_eq_getElem?_getD]

/-- Witness for C9 (amended) on a concrete table: the prepared headers are
the originals plus the two appended derived columns. -/
theorem claim_C9_w :
    (prepareTable exParse (fun d => d) (fun d => d) 0 exT).headers =
      exT.headers ++ ["Week", "Year"] :=
  (claim_C9 exParse (fun d => d) (fun d => d) 0 exT (by decide)).1

end PTDev
